import Mathlib

/-!
Shallow embedding of the Qrack quantum-simulator core, checked against its
natural-language specification.

Conventions of the embedding:
* `complex` (a pair of machine reals in the source) is modelled as `ℂ`;
  `std::norm` is `Complex.normSq`, `std::arg` is `Complex.arg` (both agree
  with the C++ library functions, including `arg 0 = 0`).
* A state vector (`complex* stateVec` of size `2^n`) is a function `ℕ → ℂ`;
  every statement about a state restricts indices to `i < 2^n`.
* Machine integers (`bitCapInt = uint64_t`) are `ℕ` with masks written with
  `&&&`, `|||`, `^^^`, `<<<`, `>>>` exactly as the source writes them.
* A freshly `malloc`ed, never-initialized buffer is an arbitrary parameter
  (`uninit : ℕ → ℂ`, `uAngle : ℕ → ℝ`), so theorems about code that reads
  uninitialized memory quantify over every possible memory content.
* A scatter loop `for i: nStateVec[f i] = v i` is `writeList`, a left fold of
  pointwise updates in loop order, so "last write wins" exactly as in the
  sequential source.
-/

namespace Qrack

/-! ## Generic buffer machinery -/

/-- Apply a list of `(index, value)` writes to a buffer, in order (later
writes overwrite earlier ones), as a sequential C loop does. -/
def writeList {α : Type} (ws : List (ℕ × α)) (init : ℕ → α) : ℕ → α :=
  ws.foldl (fun acc w => Function.update acc w.1 w.2) init

theorem writeList_append {α : Type} (ws₁ ws₂ : List (ℕ × α)) (init : ℕ → α) :
    writeList (ws₁ ++ ws₂) init = writeList ws₂ (writeList ws₁ init) := by
  simp [writeList, List.foldl_append]

/-- Reading back a scatter `nStateVec[f i] = v i` over `i < N` at a written
position `f i₀`, when `f` is injective on the range: the value is `v i₀`. -/
theorem writeList_scatter_get {α : Type} (f : ℕ → ℕ) (v : ℕ → α) :
    ∀ (N : ℕ) (init : ℕ → α) (i₀ : ℕ), i₀ < N →
      (∀ a b, a < N → b < N → f a = f b → a = b) →
      writeList ((List.range N).map fun i => (f i, v i)) init (f i₀) = v i₀ := by
  intro N
  induction N with
  | zero => intro init i₀ h; omega
  | succ n ih =>
    intro init i₀ h hinj
    rw [List.range_succ, List.map_append, writeList_append]
    rcases Nat.lt_succ_iff_lt_or_eq.mp h with hlt | heq
    · have hne : f n ≠ f i₀ := by
        intro hfe
        exact absurd (hinj n i₀ (Nat.lt_succ_self n) h hfe) (by omega)
      simp only [List.map_cons, List.map_nil, writeList, List.foldl_cons, List.foldl_nil]
      rw [Function.update_noteq (Ne.symm hne)]
      exact ih init i₀ hlt (fun a b ha hb => hinj a b (Nat.lt_succ_of_lt ha) (Nat.lt_succ_of_lt hb))
    · subst heq
      simp [writeList, Function.update_same]

/-! ## Bit-arithmetic bridges

The source manipulates register fields with masks and shifts; the claims
speak of little-endian integer values.  These lemmas connect the two. -/

theorem and_shifted_mask (i len start : ℕ) :
    i &&& ((2 ^ len - 1) <<< start) = (i / 2 ^ start % 2 ^ len) * 2 ^ start := by
  apply Nat.eq_of_testBit_eq
  intro j
  simp only [Nat.testBit_and, Nat.testBit_shiftLeft, Nat.testBit_two_pow_sub_one,
    mul_comm (i / 2 ^ start % 2 ^ len) (2 ^ start), Nat.testBit_mul_pow_two]
  rcases Nat.lt_or_ge j start with hj | hj
  · have h1 : ¬ start ≤ j := by omega
    have h2 : ¬ j ≥ start := by omega
    simp [h1, h2]
  · have h1 : start ≤ j := hj
    simp only [h1, ge_iff_le, decide_True, Bool.true_and]
    rw [Nat.testBit_mod_two_pow, ← Nat.shiftRight_eq_div_pow, Nat.testBit_shiftRight]
    have h3 : start + (j - start) = j := by omega
    rw [h3, Bool.and_comm]

theorem shifted_mask_shift (i len start : ℕ) :
    (i &&& ((2 ^ len - 1) <<< start)) >>> start = i / 2 ^ start % 2 ^ len := by
  rw [and_shifted_mask, Nat.shiftRight_eq_div_pow, Nat.mul_div_cancel _ (by positivity)]

/-! ## The CPU state-vector engine (`src/src/qengine/state/state.cpp`)

`QEngineCPU` owns `stateVec` (an array of `maxQPower = 2 ^ qubitCount`
complex amplitudes) and a `runningNorm`. -/

structure CpuEngine where
  n : ℕ
  amps : ℕ → ℂ
  runningNorm : ℝ

/-- `QEngineCPU::NormalizeState`: every amplitude is divided by
`runningNorm`, amplitudes whose squared magnitude (`std::norm`) then falls
below `min_norm` are zeroed, and `runningNorm` becomes `1`. -/
noncomputable def NormalizeState (minNorm : ℝ) (e : CpuEngine) : CpuEngine :=
  { n := e.n
    amps := fun lcv =>
      if Complex.normSq (e.amps lcv / (e.runningNorm : ℂ)) < minNorm then 0
      else e.amps lcv / (e.runningNorm : ℂ)
    runningNorm := 1 }

/-- `QEngineCPU::Cohere(toCopy)`: both engines are first renormalized if
their running norm differs from one, then the combined state vector is
filled by `nStateVec[lcv] = stateVec[lcv & startMask] *
toCopy->stateVec[(lcv & endMask) >> qubitCount]`. -/
noncomputable def Cohere (minNorm : ℝ) (e toCopy : CpuEngine) : CpuEngine :=
  let a := if e.runningNorm ≠ 1 then NormalizeState minNorm e else e
  let b := if toCopy.runningNorm ≠ 1 then NormalizeState minNorm toCopy else toCopy
  { n := a.n + b.n
    amps := fun lcv =>
      a.amps (lcv &&& (2 ^ a.n - 1)) *
        b.amps ((lcv &&& ((2 ^ b.n - 1) <<< a.n)) >>> a.n)
    runningNorm := a.runningNorm }

/-- `QEngineCPU::Prob(qubit)`: renormalize in place when `runningNorm ≠ 1`,
then accumulate `norm(stateVec[lcv])` over every index whose
`lcv & qPower` equals `qPower`.  The pair returned is (probability, engine
as left behind) — the query is not a pure read. -/
noncomputable def ProbCPU (minNorm : ℝ) (q : ℕ) (e : CpuEngine) : ℝ × CpuEngine :=
  let e1 := if e.runningNorm ≠ 1 then NormalizeState minNorm e else e
  (∑ lcv in Finset.range (2 ^ e1.n),
      if lcv &&& 2 ^ q = 2 ^ q then Complex.normSq (e1.amps lcv) else 0, e1)

/-- `QEngineCPU::ProbAll(fullRegister)`: renormalize in place when
`runningNorm ≠ 1`, then return `norm(stateVec[fullRegister])`. -/
noncomputable def ProbAllCPU (minNorm : ℝ) (perm : ℕ) (e : CpuEngine) : ℝ × CpuEngine :=
  let e1 := if e.runningNorm ≠ 1 then NormalizeState minNorm e else e
  (Complex.normSq (e1.amps perm), e1)

/-- Modelled from the spec: the error-kind taxonomy of the design
(§7 of the specification).  The construction failure below is raised in the
source as a C++ exception; the specification classifies a qubit request
beyond the index-type width as the `CapacityExceeded` kind. -/
inductive QrackError where
  | capacityExceeded
  | invalidArgument
  deriving DecidableEq

/-- `QEngineCPU::QEngineCPU(qBitCount, initState, rgp, phaseFac)`:
`bitCapInt` is `uint64_t` and `bitsInByte` is `8` (part_004), so
`sizeof(bitCapInt) * bitsInByte = 64`; a count above 64 throws.  Otherwise
the state vector is zero-filled and entry `initState` receives the phase
factor (the branch with an explicitly supplied, non-sentinel `phaseFac`). -/
def mkQEngineCPU (qBitCount initState : ℕ) (phaseFac : ℂ) :
    Except QrackError CpuEngine :=
  if qBitCount > 64 then .error .capacityExceeded
  else .ok { n := qBitCount
             amps := fun i => if i = initState then phaseFac else 0
             runningNorm := 1 }

/-- C5: Compose (`QEngineCPU::Cohere`, mirrored by the `compose` OpenCL
kernel) produces exactly the amplitude array
`new[i] = a[i & startMask] * b[(i & endMask) >> n_a]` for every index of
the combined `2 ^ (n_a + n_b)`-element state, where `startMask` selects the
low `n_a` bits and `endMask` the next `n_b` bits: the same array is the
little-endian tensor product `a[i mod 2^n_a] * b[(i div 2^n_a) mod 2^n_b]`. -/
theorem cohere_is_interleaved_tensor_product (minNorm : ℝ) (a b : CpuEngine)
    (ha : a.runningNorm = 1) (hb : b.runningNorm = 1) (i : ℕ)
    (_hi : i < 2 ^ (a.n + b.n)) :
    (Cohere minNorm a b).n = a.n + b.n ∧
    (Cohere minNorm a b).amps i =
      a.amps (i &&& (2 ^ a.n - 1)) *
        b.amps ((i &&& ((2 ^ b.n - 1) <<< a.n)) >>> a.n) ∧
    (Cohere minNorm a b).amps i =
      a.amps (i % 2 ^ a.n) * b.amps (i / 2 ^ a.n % 2 ^ b.n) := by
  refine ⟨by simp [Cohere, ha, hb], by simp [Cohere, ha, hb], ?_⟩
  simp only [Cohere, ha, hb, ne_eq, not_true_eq_false, if_false]
  rw [Nat.and_pow_two_sub_one_eq_mod, shifted_mask_shift]

/-- Witness for C5 at a concrete pair of one-qubit engines and index 2. -/
theorem cohere_is_interleaved_tensor_product_witness :
    (⟨1, fun i => if i = 0 then 1 else 0, 1⟩ : CpuEngine).runningNorm = 1 ∧
    (⟨1, fun i => if i = 1 then 1 else 0, 1⟩ : CpuEngine).runningNorm = 1 ∧
    2 < 2 ^ (1 + 1) ∧
    ((Cohere 0 ⟨1, fun i => if i = 0 then 1 else 0, 1⟩
        ⟨1, fun i => if i = 1 then 1 else 0, 1⟩).n = 1 + 1 ∧
      (Cohere 0 ⟨1, fun i => if i = 0 then 1 else 0, 1⟩
          ⟨1, fun i => if i = 1 then 1 else 0, 1⟩).amps 2 =
        (if (2 &&& (2 ^ 1 - 1) : ℕ) = 0 then (1 : ℂ) else 0) *
          (if ((2 &&& ((2 ^ 1 - 1) <<< 1)) >>> 1 : ℕ) = 1 then (1 : ℂ) else 0) ∧
      (Cohere 0 ⟨1, fun i => if i = 0 then 1 else 0, 1⟩
          ⟨1, fun i => if i = 1 then 1 else 0, 1⟩).amps 2 =
        (if (2 % 2 ^ 1 : ℕ) = 0 then (1 : ℂ) else 0) *
          (if (2 / 2 ^ 1 % 2 ^ 1 : ℕ) = 1 then (1 : ℂ) else 0)) :=
  ⟨rfl, rfl, by decide,
    cohere_is_interleaved_tensor_product 0
      ⟨1, fun i => if i = 0 then 1 else 0, 1⟩
      ⟨1, fun i => if i = 1 then 1 else 0, 1⟩ rfl rfl 2 (by decide)⟩

/-- C8: constructing a CPU engine with a qubit count exceeding the bit width
of `bitCapInt` (64, since `bitCapInt` is `uint64_t`) fails with the
`CapacityExceeded` error kind, for every over-cap count. -/
theorem mkQEngineCPU_over_cap_fails (qBitCount initState : ℕ) (phaseFac : ℂ)
    (h : 64 < qBitCount) :
    mkQEngineCPU qBitCount initState phaseFac = .error .capacityExceeded := by
  simp [mkQEngineCPU, h]

/-- Witness for C8 at the least over-cap count, 65 qubits. -/
theorem mkQEngineCPU_over_cap_fails_witness :
    64 < 65 ∧ mkQEngineCPU 65 0 1 = .error .capacityExceeded :=
  ⟨by decide, mkQEngineCPU_over_cap_fails 65 0 1 (by decide)⟩

/-- C9: `Prob` and `ProbAll` on the CPU engine are not pure reads: whenever
`runningNorm ≠ 1` they renormalize the state in place — every amplitude is
divided by the running norm and zeroed when its squared magnitude falls
below the `min_norm` threshold, the running norm becomes 1 — and the
returned probability is computed from the renormalized amplitudes. -/
theorem prob_renormalizes_in_place (minNorm : ℝ) (q perm : ℕ) (e : CpuEngine)
    (h : e.runningNorm ≠ 1) :
    ((ProbCPU minNorm q e).2.amps = fun lcv =>
        if Complex.normSq (e.amps lcv / (e.runningNorm : ℂ)) < minNorm then 0
        else e.amps lcv / (e.runningNorm : ℂ)) ∧
    (ProbCPU minNorm q e).2.runningNorm = 1 ∧
    (ProbCPU minNorm q e).2.n = e.n ∧
    (ProbCPU minNorm q e).1 =
      (∑ lcv in Finset.range (2 ^ e.n),
        if lcv &&& 2 ^ q = 2 ^ q then
          Complex.normSq ((ProbCPU minNorm q e).2.amps lcv) else 0) ∧
    (ProbAllCPU minNorm perm e).2 = (ProbCPU minNorm q e).2 ∧
    (ProbAllCPU minNorm perm e).1 =
      Complex.normSq ((ProbAllCPU minNorm perm e).2.amps perm) := by
  refine ⟨?_, ?_, ?_, ?_, ?_, ?_⟩ <;> simp [ProbCPU, ProbAllCPU, NormalizeState, h]

/-- Witness for C9 at a one-qubit engine whose running norm is 2. -/
theorem prob_renormalizes_in_place_witness :
    (⟨1, fun i => if i = 0 then 2 else 0, 2⟩ : CpuEngine).runningNorm ≠ 1 ∧
    ((ProbCPU (1 / 100) 0 ⟨1, fun i => if i = 0 then 2 else 0, 2⟩).2.amps =
        fun lcv =>
          if Complex.normSq ((if lcv = 0 then (2 : ℂ) else 0) / ((2 : ℝ) : ℂ)) <
              (1 / 100 : ℝ) then 0
          else (if lcv = 0 then (2 : ℂ) else 0) / ((2 : ℝ) : ℂ)) ∧
      (ProbCPU (1 / 100) 0 ⟨1, fun i => if i = 0 then 2 else 0, 2⟩).2.runningNorm = 1 ∧
      (ProbCPU (1 / 100) 0 ⟨1, fun i => if i = 0 then 2 else 0, 2⟩).2.n = 1 ∧
      (ProbCPU (1 / 100) 0 ⟨1, fun i => if i = 0 then 2 else 0, 2⟩).1 =
        (∑ lcv in Finset.range (2 ^ 1),
          if lcv &&& 2 ^ 0 = 2 ^ 0 then
            Complex.normSq
              ((ProbCPU (1 / 100) 0 ⟨1, fun i => if i = 0 then 2 else 0, 2⟩).2.amps lcv)
          else 0) ∧
      (ProbAllCPU (1 / 100) 0 ⟨1, fun i => if i = 0 then 2 else 0, 2⟩).2 =
        (ProbCPU (1 / 100) 0 ⟨1, fun i => if i = 0 then 2 else 0, 2⟩).2 ∧
      (ProbAllCPU (1 / 100) 0 ⟨1, fun i => if i = 0 then 2 else 0, 2⟩).1 =
        Complex.normSq
          ((ProbAllCPU (1 / 100) 0 ⟨1, fun i => if i = 0 then 2 else 0, 2⟩).2.amps 0) :=
  ⟨by norm_num,
    prob_renormalizes_in_place (1 / 100) 0 0
      ⟨1, fun i => if i = 0 then 2 else 0, 2⟩ (by norm_num)⟩

/-! ## The `inc` OpenCL kernel (part_002) with host arguments from
`QEngineOCL::INT` (opencl.cpp): `maxI = maxQPower`, `inOutMask =
(lengthPower - 1) << start`, `otherMask = (maxQPower - 1) & ~inOutMask`,
`lengthMask = lengthPower - 1`. -/

/-- Bitwise NOT on a `uint64_t` value. -/
def not64 (x : ℕ) : ℕ := (2 ^ 64 - 1) ^^^ x

/-- `otherMask = (maxQPower - 1) & ~regMask` from `QEngineOCL::INT`. -/
def incOtherMask (n start len : ℕ) : ℕ :=
  (2 ^ n - 1) &&& not64 ((2 ^ len - 1) <<< start)

/-- Destination index of one `inc`-kernel write:
`(((((i & inOutMask) >> inOutStart) + toAdd) & lengthMask) << inOutStart) | (i & otherMask)`. -/
def incDst (n start len toAdd i : ℕ) : ℕ :=
  (((((i &&& ((2 ^ len - 1) <<< start)) >>> start) + toAdd) &&& (2 ^ len - 1)) <<< start)
    ||| (i &&& incOtherMask n start len)

/-- The `inc` kernel as a buffer transform: one write
`nStateVec[incDst i] = stateVec[i]` per source index `i < 2 ^ n`, into a
freshly allocated buffer `init`. -/
def incKernel (n start len toAdd : ℕ) (s init : ℕ → ℂ) : ℕ → ℂ :=
  writeList ((List.range (2 ^ n)).map fun i => (incDst n start len toAdd i, s i)) init

theorem and_incOtherMask (n start len i : ℕ) (hsl : start + len ≤ n)
    (hn : n ≤ 64) (hi : i < 2 ^ n) :
    i &&& incOtherMask n start len =
      i % 2 ^ start + i / 2 ^ (start + len) * 2 ^ (start + len) := by
  have hmod : i % 2 ^ start < 2 ^ (start + len) :=
    lt_of_lt_of_le (Nat.mod_lt _ (by positivity)) (Nat.pow_le_pow_right (by omega) (by omega))
  apply Nat.eq_of_testBit_eq
  intro j
  rw [add_comm, mul_comm]
  rw [Nat.testBit_mul_pow_two_add _ hmod]
  simp only [incOtherMask, not64, Nat.testBit_and, Nat.testBit_xor,
    Nat.testBit_two_pow_sub_one, Nat.testBit_shiftLeft, ge_iff_le]
  rcases Nat.lt_or_ge j start with hj | hj
  · have h1 : j < n := by omega
    have h2 : j < 64 := by omega
    have h3 : ¬ start ≤ j := by omega
    have h4 : j < start + len := by omega
    simp [h1, h2, h3, h4, Nat.testBit_mod_two_pow, hj]
  · rcases Nat.lt_or_ge j (start + len) with hj2 | hj2
    · have h1 : j < n := by omega
      have h2 : j < 64 := by omega
      have h3 : start ≤ j := hj
      have h4 : j - start < len := by omega
      have h5 : ¬ j < start := by omega
      simp [h1, h2, h3, h4, hj2, Nat.testBit_mod_two_pow, h5]
    · have h4 : ¬ (j - start < len) := by omega
      have h5 : ¬ j < start + len := by omega
      have h6 : i / 2 ^ (start + len) = i >>> (start + len) :=
        (Nat.shiftRight_eq_div_pow i (start + len)).symm
      rw [h6]
      simp only [h4, h5, decide_False, Bool.and_false, if_false, Nat.testBit_shiftRight]
      have h7 : start + len + (j - (start + len)) = j := by omega
      rw [h7]
      rcases Nat.lt_or_ge j n with hjn | hjn
      · have h8 : j < 64 := by omega
        simp [hjn, h8, hj]
      · have h9 : i.testBit j = false :=
          Nat.testBit_lt_two_pow (lt_of_lt_of_le hi (Nat.pow_le_pow_right (by omega) hjn))
        simp [h9]

theorem incDst_eq (n start len toAdd i : ℕ) (hsl : start + len ≤ n)
    (hn : n ≤ 64) (hi : i < 2 ^ n) :
    incDst n start len toAdd i =
      i % 2 ^ start + (i / 2 ^ start % 2 ^ len + toAdd) % 2 ^ len * 2 ^ start
        + i / 2 ^ (start + len) * 2 ^ (start + len) := by
  unfold incDst
  rw [shifted_mask_shift, Nat.and_pow_two_sub_one_eq_mod, Nat.shiftLeft_eq,
    and_incOtherMask n start len i hsl hn hi]
  set low := i % 2 ^ start with hlowdef
  set mid := (i / 2 ^ start % 2 ^ len + toAdd) % 2 ^ len with hmiddef
  set high := i / 2 ^ (start + len) with hhighdef
  have hlow : low < 2 ^ start := Nat.mod_lt _ (by positivity)
  have hmid : mid < 2 ^ len := Nat.mod_lt _ (by positivity)
  have hml : 2 ^ start * mid + low < 2 ^ (start + len) := by
    rw [pow_add]
    calc 2 ^ start * mid + low < 2 ^ start * mid + 2 ^ start := by omega
      _ = 2 ^ start * (mid + 1) := by ring
      _ ≤ 2 ^ start * 2 ^ len := Nat.mul_le_mul_left _ (by omega)
  have hlow2 : low < 2 ^ (start + len) := by
    calc low < 2 ^ start := hlow
      _ ≤ 2 ^ (start + len) := Nat.pow_le_pow_right (by omega) (by omega)
  have h1 : 2 ^ start * mid ||| low = 2 ^ start * mid + low :=
    (Nat.mul_add_lt_is_or hlow _).symm
  have h2 : 2 ^ (start + len) * high ||| (2 ^ start * mid + low) =
      2 ^ (start + len) * high + (2 ^ start * mid + low) :=
    (Nat.mul_add_lt_is_or hml _).symm
  have h3 : 2 ^ (start + len) * high ||| low = 2 ^ (start + len) * high + low :=
    (Nat.mul_add_lt_is_or hlow2 _).symm
  calc mid * 2 ^ start ||| (low + high * 2 ^ (start + len))
      = 2 ^ start * mid ||| (2 ^ (start + len) * high + low) := by ring_nf
    _ = 2 ^ start * mid ||| (2 ^ (start + len) * high ||| low) := by rw [h3]
    _ = 2 ^ (start + len) * high ||| (2 ^ start * mid ||| low) := by
        rw [← Nat.lor_assoc, Nat.lor_comm (2 ^ start * mid) (2 ^ (start + len) * high),
          Nat.lor_assoc]
    _ = 2 ^ (start + len) * high + (2 ^ start * mid + low) := by rw [h1, h2]
    _ = low + mid * 2 ^ start + high * 2 ^ (start + len) := by ring

theorem incDst_lt (n start len toAdd i : ℕ) (hsl : start + len ≤ n)
    (hn : n ≤ 64) (hi : i < 2 ^ n) : incDst n start len toAdd i < 2 ^ n := by
  rw [incDst_eq n start len toAdd i hsl hn hi]
  set a := 2 ^ start with hadef
  set b := 2 ^ len with hbdef
  set c := 2 ^ (n - (start + len)) with hcdef
  have habc : 2 ^ n = a * b * c := by
    rw [hadef, hbdef, hcdef, ← pow_add, ← pow_add]
    congr 1
    omega
  have hab : 2 ^ (start + len) = a * b := pow_add 2 start len
  rw [hab, habc]
  have hlow : i % a < a := Nat.mod_lt _ (by positivity)
  have hmid : (i / a % b + toAdd) % b < b := Nat.mod_lt _ (by positivity)
  have hiabc : i < a * b * c := by
    rw [← habc]
    exact hi
  have hhigh : i / (a * b) < c := Nat.div_lt_of_lt_mul hiabc
  have key : i % a + (i / a % b + toAdd) % b * a + i / (a * b) * (a * b) + 1 ≤
      a * b * c := by
    calc i % a + (i / a % b + toAdd) % b * a + i / (a * b) * (a * b) + 1
        ≤ a + (i / a % b + toAdd) % b * a + i / (a * b) * (a * b) := by omega
      _ = ((i / a % b + toAdd) % b + 1) * a + i / (a * b) * (a * b) := by ring
      _ ≤ b * a + i / (a * b) * (a * b) :=
          Nat.add_le_add_right (Nat.mul_le_mul_right _ (by omega)) _
      _ = (i / (a * b) + 1) * (a * b) := by ring
      _ ≤ c * (a * b) := Nat.mul_le_mul_right _ (by omega)
      _ = a * b * c := by ring
  omega

theorem nat_three_part_decompose (i s l : ℕ) :
    i % 2 ^ s + i / 2 ^ s % 2 ^ l * 2 ^ s + i / 2 ^ (s + l) * 2 ^ (s + l) = i := by
  have h1 : i % 2 ^ (s + l) % 2 ^ s = i % 2 ^ s :=
    Nat.mod_mod_of_dvd _ (pow_dvd_pow 2 (by omega))
  have h2 : i % 2 ^ (s + l) / 2 ^ s = i / 2 ^ s % 2 ^ l := by
    rw [pow_add]
    exact Nat.mod_mul_right_div_self i (2 ^ s) (2 ^ l)
  have h3 : i % 2 ^ (s + l) + 2 ^ (s + l) * (i / 2 ^ (s + l)) = i := Nat.mod_add_div i _
  have h4 : i % 2 ^ (s + l) % 2 ^ s + 2 ^ s * (i % 2 ^ (s + l) / 2 ^ s) = i % 2 ^ (s + l) :=
    Nat.mod_add_div _ _
  rw [h1, h2] at h4
  calc i % 2 ^ s + i / 2 ^ s % 2 ^ l * 2 ^ s + i / 2 ^ (s + l) * 2 ^ (s + l)
      = (i % 2 ^ s + 2 ^ s * (i / 2 ^ s % 2 ^ l)) + 2 ^ (s + l) * (i / 2 ^ (s + l)) := by
        ring
    _ = i % 2 ^ (s + l) + 2 ^ (s + l) * (i / 2 ^ (s + l)) := by rw [h4]
    _ = i := h3

theorem incDst_roundtrip (n start len k1 k2 i : ℕ) (hsl : start + len ≤ n)
    (hn : n ≤ 64) (hi : i < 2 ^ n) (hk : (k1 + k2) % 2 ^ len = 0) :
    incDst n start len k2 (incDst n start len k1 i) = i := by
  have hN1 : incDst n start len k1 i < 2 ^ n := incDst_lt n start len k1 i hsl hn hi
  rw [incDst_eq n start len k2 _ hsl hn hN1, incDst_eq n start len k1 i hsl hn hi]
  set low := i % 2 ^ start with hlowdef
  set mid1 := (i / 2 ^ start % 2 ^ len + k1) % 2 ^ len with hmid1def
  set high := i / 2 ^ (start + len) with hhighdef
  have hlow : low < 2 ^ start := Nat.mod_lt _ (by positivity)
  have hmid1 : mid1 < 2 ^ len := Nat.mod_lt _ (by positivity)
  have hml : low + 2 ^ start * mid1 < 2 ^ (start + len) := by
    rw [pow_add]
    calc low + 2 ^ start * mid1 < 2 ^ start + 2 ^ start * mid1 := by omega
      _ = 2 ^ start * (mid1 + 1) := by ring
      _ ≤ 2 ^ start * 2 ^ len := Nat.mul_le_mul_left _ (by omega)
  set N := low + mid1 * 2 ^ start + high * 2 ^ (start + len) with hNdef
  have hNa : N = low + 2 ^ start * (mid1 + 2 ^ len * high) := by
    rw [hNdef, pow_add]
    ring
  have hNmod : N % 2 ^ start = low := by
    rw [hNa, Nat.add_mul_mod_self_left, Nat.mod_eq_of_lt hlow]
  have hNdiv : N / 2 ^ start = mid1 + 2 ^ len * high := by
    rw [hNa, Nat.add_mul_div_left _ _ (by positivity : (0:ℕ) < 2 ^ start),
      Nat.div_eq_of_lt hlow, Nat.zero_add]
  have hNmid : N / 2 ^ start % 2 ^ len = mid1 := by
    rw [hNdiv, Nat.add_mul_mod_self_left, Nat.mod_eq_of_lt hmid1]
  have hNhigh : N / 2 ^ (start + len) = high := by
    have : N = (low + 2 ^ start * mid1) + 2 ^ (start + len) * high := by
      rw [hNdef, pow_add]
      ring
    rw [this, Nat.add_mul_div_left _ _ (by positivity : (0:ℕ) < 2 ^ (start + len)),
      Nat.div_eq_of_lt hml, Nat.zero_add]
  rw [hNmod, hNmid, hNhigh]
  have hmid2 : (mid1 + k2) % 2 ^ len = i / 2 ^ start % 2 ^ len := by
    obtain ⟨m, hm⟩ := Nat.dvd_of_mod_eq_zero hk
    have hR : i / 2 ^ start % 2 ^ len < 2 ^ len := Nat.mod_lt _ (by positivity)
    rw [hmid1def, Nat.mod_add_mod, Nat.add_assoc, hm, Nat.add_mul_mod_self_left,
      Nat.mod_eq_of_lt hR]
  rw [hmid2]
  exact nat_three_part_decompose i start len

/-- C4: `INC(k); INC(-k)` is the identity on the state vector.  The `inc`
kernel permutes basis indices by adding the addend to the `[start,
start+len)` field read as a little-endian unsigned integer modulo
`2 ^ len`, moving each amplitude from source to destination index, and two
increments whose addends cancel modulo `2 ^ len` (as `k` and `-k` on the
machine do) compose to the identity. -/
theorem inc_then_dec_is_identity (n start len k1 k2 : ℕ)
    (hsl : start + len ≤ n) (hn : n ≤ 64) (hk : (k1 + k2) % 2 ^ len = 0) :
    (∀ i, i < 2 ^ n →
      incDst n start len k1 i =
        i % 2 ^ start + (i / 2 ^ start % 2 ^ len + k1) % 2 ^ len * 2 ^ start
          + i / 2 ^ (start + len) * 2 ^ (start + len)) ∧
    (∀ i, i < 2 ^ n → incDst n start len k2 (incDst n start len k1 i) = i) ∧
    (∀ (s init1 init2 : ℕ → ℂ) (j : ℕ), j < 2 ^ n →
      incKernel n start len k2 (incKernel n start len k1 s init1) init2 j = s j) := by
  have hk21 : (k2 + k1) % 2 ^ len = 0 := by rwa [Nat.add_comm]
  have rt12 : ∀ i, i < 2 ^ n → incDst n start len k2 (incDst n start len k1 i) = i :=
    fun i hi => incDst_roundtrip n start len k1 k2 i hsl hn hi hk
  have rt21 : ∀ i, i < 2 ^ n → incDst n start len k1 (incDst n start len k2 i) = i :=
    fun i hi => incDst_roundtrip n start len k2 k1 i hsl hn hi hk21
  have inj1 : ∀ a b, a < 2 ^ n → b < 2 ^ n →
      incDst n start len k1 a = incDst n start len k1 b → a = b := by
    intro a b ha hb hab
    have := rt12 a ha
    rw [hab, rt12 b hb] at this
    omega
  have inj2 : ∀ a b, a < 2 ^ n → b < 2 ^ n →
      incDst n start len k2 a = incDst n start len k2 b → a = b := by
    intro a b ha hb hab
    have := rt21 a ha
    rw [hab, rt21 b hb] at this
    omega
  refine ⟨fun i hi => incDst_eq n start len k1 i hsl hn hi, rt12, ?_⟩
  intro s init1 init2 j hj
  have hj1 : incDst n start len k1 j < 2 ^ n := incDst_lt n start len k1 j hsl hn hj
  have hsplit : j = incDst n start len k2 (incDst n start len k1 j) := (rt12 j hj).symm
  calc incKernel n start len k2 (incKernel n start len k1 s init1) init2 j
      = incKernel n start len k2 (incKernel n start len k1 s init1) init2
          (incDst n start len k2 (incDst n start len k1 j)) := by rw [← hsplit]
    _ = incKernel n start len k1 s init1 (incDst n start len k1 j) :=
        writeList_scatter_get _ _ _ _ _ hj1 inj2
    _ = s j := writeList_scatter_get _ _ _ _ _ hj inj1

/-- Witness for C4: 3 qubits, register field at bit 1 of width 2, addends
1 and 3 (`-1` modulo `2 ^ 2`). -/
theorem inc_then_dec_is_identity_witness :
    1 + 2 ≤ 3 ∧ (3 : ℕ) ≤ 64 ∧ (1 + 3) % 2 ^ 2 = 0 ∧
    ((∀ i, i < 2 ^ 3 →
        incDst 3 1 2 1 i =
          i % 2 ^ 1 + (i / 2 ^ 1 % 2 ^ 2 + 1) % 2 ^ 2 * 2 ^ 1
            + i / 2 ^ (1 + 2) * 2 ^ (1 + 2)) ∧
      (∀ i, i < 2 ^ 3 → incDst 3 1 2 3 (incDst 3 1 2 1 i) = i) ∧
      (∀ (s init1 init2 : ℕ → ℂ) (j : ℕ), j < 2 ^ 3 →
        incKernel 3 1 2 3 (incKernel 3 1 2 1 s init1) init2 j = s j)) :=
  ⟨by decide, by decide, by decide,
    inc_then_dec_is_identity 3 1 2 1 3 (by decide) (by decide) (by decide)⟩

/-! ## The `uniformparityrz` OpenCL kernel (part_002) -/

/-- The kernel's set-bit counter: `for (c = 0; perm; c++) perm &= perm - 1`
(clear the least significant set bit until zero). -/
def kernCount (p : ℕ) : ℕ :=
  if h : p = 0 then 0 else kernCount (p &&& (p - 1)) + 1
decreasing_by
  exact lt_of_le_of_lt Nat.and_le_right (Nat.sub_lt (Nat.pos_of_ne_zero h) one_pos)

/-- Reference population count: number of set bits of a natural number. -/
def popCnt (n : ℕ) : ℕ :=
  if h : n = 0 then 0 else n % 2 + popCnt (n / 2)
decreasing_by
  exact Nat.div_lt_self (Nat.pos_of_ne_zero h) (by omega)

theorem popCnt_two_mul (q : ℕ) : popCnt (2 * q) = popCnt q := by
  rcases Nat.eq_zero_or_pos q with h | h
  · subst h
    rfl
  · rw [popCnt]
    have h0 : ¬ (2 * q = 0) := by omega
    have h1 : 2 * q % 2 = 0 := by omega
    have h2 : 2 * q / 2 = q := by omega
    simp [h0, h1, h2]

theorem popCnt_two_mul_add_one (q : ℕ) : popCnt (2 * q + 1) = popCnt q + 1 := by
  rw [popCnt]
  have h0 : ¬ (2 * q + 1 = 0) := by omega
  have h1 : (2 * q + 1) % 2 = 1 := by omega
  have h2 : (2 * q + 1) / 2 = q := by omega
  simp [h0, h1, h2]
  omega

theorem and_two_mul_add_one_self (q : ℕ) : (2 * q + 1) &&& (2 * q) = 2 * q := by
  apply Nat.eq_of_testBit_eq
  intro j
  cases j with
  | zero =>
    have h1 : (2 * q + 1) % 2 = 1 := by omega
    have h2 : (2 * q) % 2 = 0 := by omega
    simp [Nat.testBit_and, Nat.testBit_zero, h1, h2]
  | succ m =>
    have h1 : (2 * q + 1) / 2 = q := by omega
    have h2 : (2 * q) / 2 = q := by omega
    simp [Nat.testBit_and, Nat.testBit_add_one, Nat.and_div_two, h1, h2]

theorem and_pred_two_mul (q : ℕ) (_hq : q ≠ 0) :
    (2 * q) &&& (2 * q - 1) = 2 * (q &&& (q - 1)) := by
  apply Nat.eq_of_testBit_eq
  intro j
  cases j with
  | zero =>
    have h1 : (2 * q) % 2 = 0 := by omega
    have h2 : (2 * (q &&& (q - 1))) % 2 = 0 := by omega
    simp [Nat.testBit_and, Nat.testBit_zero, h1, h2]
  | succ m =>
    have h1 : (2 * q) / 2 = q := by omega
    have h2 : (2 * q - 1) / 2 = q - 1 := by omega
    have h3 : (2 * (q &&& (q - 1))) / 2 = q &&& (q - 1) := by omega
    simp [Nat.testBit_and, Nat.testBit_add_one, Nat.and_div_two, h1, h2, h3]

/-- Kernighan step: clearing the least significant set bit removes exactly
one set bit. -/
theorem popCnt_and_pred (p : ℕ) (hp : p ≠ 0) :
    popCnt (p &&& (p - 1)) + 1 = popCnt p := by
  induction p using Nat.strong_induction_on with
  | _ p ih =>
    rcases Nat.even_or_odd p with ⟨q, hq⟩ | ⟨q, hq⟩
    · have hq2 : p = 2 * q := by omega
      subst hq2
      have hq0 : q ≠ 0 := by omega
      rw [and_pred_two_mul q hq0, popCnt_two_mul, popCnt_two_mul,
        ih q (by omega) hq0]
    · subst hq
      rw [Nat.add_sub_cancel, and_two_mul_add_one_self, popCnt_two_mul,
        popCnt_two_mul_add_one]

/-- The kernel loop counts exactly the set bits. -/
theorem kernCount_eq_popCnt (p : ℕ) : kernCount p = popCnt p := by
  induction p using Nat.strong_induction_on with
  | _ p ih =>
    rcases Nat.eq_zero_or_pos p with h | h
    · subst h
      rw [kernCount, popCnt]
      simp
    · have hp : p ≠ 0 := by omega
      rw [kernCount]
      simp only [hp, dite_false]
      rw [ih (p &&& (p - 1))
          (lt_of_le_of_lt Nat.and_le_right (Nat.sub_lt h one_pos)),
        popCnt_and_pred p hp]

/-- The `uniformparityrz` kernel: for every `lcv < maxI`, count the set
bits of `lcv & qMask` by clearing least-significant bits, and multiply the
amplitude by `phaseFac` on odd count (`c & 1`), `phaseFacAdj` on even. -/
def uniformparityrz (maxI qMask : ℕ) (phaseFac phaseFacAdj : ℂ)
    (s : ℕ → ℂ) : ℕ → ℂ :=
  fun lcv =>
    if lcv < maxI then
      s lcv * (if kernCount (lcv &&& qMask) &&& 1 = 1 then phaseFac else phaseFacAdj)
    else s lcv

/-- Modelled from the spec: the host-side `UniformParityRZ(mask, angle)`
wrapper is declared in `qengine_cpu.hpp` but its body is not among the
source files; per the specification it launches the `uniformparityrz`
kernel over all `2 ^ n` amplitudes with `phaseFac = complex(cos angle,
sin angle)` and `phaseFacAdj` its complex conjugate. -/
noncomputable def UniformParityRZ (n qMask : ℕ) (angle : ℝ) (s : ℕ → ℂ) : ℕ → ℂ :=
  uniformparityrz (2 ^ n) qMask
    ⟨Real.cos angle, Real.sin angle⟩ ⟨Real.cos angle, -Real.sin angle⟩ s

/-- C6: `UniformParityRZ(mask, angle)` multiplies every amplitude whose
index has odd popcount under the mask by `e^{+i*angle}`, every amplitude
with even parity by `e^{-i*angle}`, and does nothing else to any
amplitude. -/
theorem uniformParityRZ_applies_parity_phase (n qMask : ℕ) (angle : ℝ)
    (s : ℕ → ℂ) (i : ℕ) (hi : i < 2 ^ n) :
    UniformParityRZ n qMask angle s i =
      Complex.exp
        ((if Odd (popCnt (i &&& qMask)) then (angle : ℂ) else -(angle : ℂ)) *
          Complex.I) * s i := by
  have hplus : (⟨Real.cos angle, Real.sin angle⟩ : ℂ) =
      Complex.exp ((angle : ℂ) * Complex.I) := by
    rw [Complex.exp_mul_I, Complex.mk_eq_add_mul_I, Complex.ofReal_cos,
      Complex.ofReal_sin]
  have hminus : (⟨Real.cos angle, -Real.sin angle⟩ : ℂ) =
      Complex.exp (-(angle : ℂ) * Complex.I) := by
    rw [Complex.exp_mul_I, Complex.cos_neg, Complex.sin_neg,
      Complex.mk_eq_add_mul_I, Complex.ofReal_cos, Complex.ofReal_neg,
      Complex.ofReal_sin]
  unfold UniformParityRZ uniformparityrz
  rw [if_pos hi, kernCount_eq_popCnt]
  have hodd : (popCnt (i &&& qMask) &&& 1 = 1) ↔ Odd (popCnt (i &&& qMask)) := by
    rw [Nat.and_one_is_mod, Nat.odd_iff]
  by_cases h : Odd (popCnt (i &&& qMask))
  · rw [if_pos (hodd.mpr h), if_pos h, hplus, mul_comm]
  · rw [if_neg (fun hc => h (hodd.mp hc)), if_neg h, hminus, mul_comm]

/-- Witness for C6 at one qubit, mask 1, angle 1, index 1. -/
theorem uniformParityRZ_applies_parity_phase_witness :
    1 < 2 ^ 1 ∧
    UniformParityRZ 1 1 1 (fun j => if j = 1 then 1 else 0) 1 =
      Complex.exp
        ((if Odd (popCnt (1 &&& 1)) then ((1 : ℝ) : ℂ) else -((1 : ℝ) : ℂ)) *
          Complex.I) * (if (1 : ℕ) = 1 then (1 : ℂ) else 0) :=
  ⟨by decide,
    uniformParityRZ_applies_parity_phase 1 1 1 (fun j => if j = 1 then 1 else 0) 1
      (by decide)⟩

/-! ## The stabilizer-hybrid layer (part_000): doubly-controlled dispatch

In stabilizer mode with no pending shard, `QStabilizerHybrid::Prob` is the
probability of the represented state, and gates forwarded to the stabilizer
— or, after `SwitchToEngine` (which materializes the same state into
amplitudes), to the engine — act on the represented state vector by their
standard basis-permutation / phase semantics.  States are the materialized
vectors `ψ : ℕ → ℂ`. -/

/-- `Prob(qubit)`: summed squared magnitude over the indices with the qubit
bit set (`lcv & qPower == qPower` in the source). -/
noncomputable def probQ (n q : ℕ) (ψ : ℕ → ℂ) : ℝ :=
  ∑ lcv in Finset.range (2 ^ n),
    if lcv &&& 2 ^ q = 2 ^ q then Complex.normSq (ψ lcv) else 0

/-- Total squared norm of an `n`-qubit state. -/
noncomputable def totalNorm (n : ℕ) (ψ : ℕ → ℂ) : ℝ :=
  ∑ lcv in Finset.range (2 ^ n), Complex.normSq (ψ lcv)

/-- State-vector semantics of `CCNOT(c1, c2, t)`: flip bit `t` on the basis
states where both controls read 1. -/
def semCCNOT (c1 c2 t : ℕ) (ψ : ℕ → ℂ) : ℕ → ℂ :=
  fun i => if i.testBit c1 = true ∧ i.testBit c2 = true then ψ (i ^^^ 2 ^ t) else ψ i

/-- State-vector semantics of `CNOT(c, t)`. -/
def semCNOT (c t : ℕ) (ψ : ℕ → ℂ) : ℕ → ℂ :=
  fun i => if i.testBit c = true then ψ (i ^^^ 2 ^ t) else ψ i

/-- State-vector semantics of `CCZ(c1, c2, t)`. -/
def semCCZ (c1 c2 t : ℕ) (ψ : ℕ → ℂ) : ℕ → ℂ :=
  fun i =>
    if i.testBit c1 = true ∧ i.testBit c2 = true ∧ i.testBit t = true then -ψ i
    else ψ i

/-- State-vector semantics of `CZ(c, t)`. -/
def semCZ (c t : ℕ) (ψ : ℕ → ℂ) : ℕ → ℂ :=
  fun i => if i.testBit c = true ∧ i.testBit t = true then -ψ i else ψ i

/-- `QStabilizerHybrid::CCNOT` in stabilizer mode: probe `Prob(control1)`
(return unchanged at 0, `CNOT(control2, target)` at 1), then
`Prob(control2)` (return unchanged at 0, `CNOT(control1, target)` at 1),
otherwise `SwitchToEngine` and the full `CCNOT` on the engine. -/
noncomputable def hybridCCNOT (n c1 c2 t : ℕ) (ψ : ℕ → ℂ) : ℕ → ℂ :=
  if probQ n c1 ψ = 0 then ψ
  else if probQ n c1 ψ = 1 then semCNOT c2 t ψ
  else if probQ n c2 ψ = 0 then ψ
  else if probQ n c2 ψ = 1 then semCNOT c1 t ψ
  else semCCNOT c1 c2 t ψ

/-- `QStabilizerHybrid::CCZ` in stabilizer mode: probes `Prob(control1)`,
`Prob(control2)` and `Prob(target)` in turn, reducing to a `CZ` on the
other two qubits at probability 1 and to a no-op at probability 0. -/
noncomputable def hybridCCZ (n c1 c2 t : ℕ) (ψ : ℕ → ℂ) : ℕ → ℂ :=
  if probQ n c1 ψ = 0 then ψ
  else if probQ n c1 ψ = 1 then semCZ c2 t ψ
  else if probQ n c2 ψ = 0 then ψ
  else if probQ n c2 ψ = 1 then semCZ c1 t ψ
  else if probQ n t ψ = 0 then ψ
  else if probQ n t ψ = 1 then semCZ c1 c2 ψ
  else semCCZ c1 c2 t ψ

theorem and_two_pow_eq_iff (i q : ℕ) :
    (i &&& 2 ^ q = 2 ^ q) ↔ i.testBit q = true := by
  rw [Nat.and_two_pow]
  cases hb : i.testBit q with
  | false =>
    have h := Nat.two_pow_pos q
    simp only [Bool.toNat_false, Nat.zero_mul]
    constructor
    · intro hc
      omega
    · intro hc
      exact absurd hc (by simp)
  | true => simp

theorem probQ_zero_amp (n q : ℕ) (ψ : ℕ → ℂ) (h : probQ n q ψ = 0) :
    ∀ i, i < 2 ^ n → i.testBit q = true → ψ i = 0 := by
  intro i hi hb
  have hnn : ∀ j ∈ Finset.range (2 ^ n),
      0 ≤ (if j &&& 2 ^ q = 2 ^ q then Complex.normSq (ψ j) else 0) := by
    intro j _
    split
    · exact Complex.normSq_nonneg _
    · exact le_refl _
  have hterm := (Finset.sum_eq_zero_iff_of_nonneg hnn).mp h i (Finset.mem_range.mpr hi)
  rw [if_pos ((and_two_pow_eq_iff i q).mpr hb)] at hterm
  exact Complex.normSq_eq_zero.mp hterm

theorem probQ_one_amp (n q : ℕ) (ψ : ℕ → ℂ) (ht : totalNorm n ψ = 1)
    (h : probQ n q ψ = 1) :
    ∀ i, i < 2 ^ n → i.testBit q = false → ψ i = 0 := by
  have hsplit : totalNorm n ψ = probQ n q ψ +
      ∑ lcv in Finset.range (2 ^ n),
        (if lcv &&& 2 ^ q = 2 ^ q then 0 else Complex.normSq (ψ lcv)) := by
    rw [totalNorm, probQ, ← Finset.sum_add_distrib]
    apply Finset.sum_congr rfl
    intro j _
    split
    · ring
    · ring
  have hzero : ∑ lcv in Finset.range (2 ^ n),
      (if lcv &&& 2 ^ q = 2 ^ q then 0 else Complex.normSq (ψ lcv)) = 0 := by
    rw [hsplit, h] at ht
    linarith
  intro i hi hb
  have hnn : ∀ j ∈ Finset.range (2 ^ n),
      0 ≤ (if j &&& 2 ^ q = 2 ^ q then 0 else Complex.normSq (ψ j)) := by
    intro j _
    split
    · exact le_refl _
    · exact Complex.normSq_nonneg _
  have hterm := (Finset.sum_eq_zero_iff_of_nonneg hnn).mp hzero i (Finset.mem_range.mpr hi)
  have hmask : ¬ (i &&& 2 ^ q = 2 ^ q) := by
    rw [and_two_pow_eq_iff, hb]
    simp
  rw [if_neg hmask] at hterm
  exact Complex.normSq_eq_zero.mp hterm

theorem xor_two_pow_lt (i t n : ℕ) (ht : t < n) (hi : i < 2 ^ n) :
    i ^^^ 2 ^ t < 2 ^ n :=
  Nat.xor_lt_two_pow hi (Nat.pow_lt_pow_right (by omega) ht)

theorem testBit_xor_two_pow_ne (i t c : ℕ) (h : t ≠ c) :
    (i ^^^ 2 ^ t).testBit c = i.testBit c := by
  rw [Nat.testBit_xor, Nat.testBit_two_pow_of_ne h]
  cases i.testBit c <;> rfl

theorem semCCNOT_comm (c1 c2 t : ℕ) (ψ : ℕ → ℂ) :
    semCCNOT c1 c2 t ψ = semCCNOT c2 c1 t ψ := by
  funext i
  by_cases h1 : i.testBit c1 = true <;> by_cases h2 : i.testBit c2 = true <;>
    simp [semCCNOT, h1, h2]

theorem semCCZ_comm (c1 c2 t : ℕ) (ψ : ℕ → ℂ) :
    semCCZ c1 c2 t ψ = semCCZ c2 c1 t ψ := by
  funext i
  by_cases h1 : i.testBit c1 = true <;> by_cases h2 : i.testBit c2 = true <;>
    simp [semCCZ, h1, h2]

theorem semCNOT_noop (n c t : ℕ) (ψ : ℕ → ℂ) (ht : t < n) (hct : c ≠ t)
    (hz : ∀ j, j < 2 ^ n → j.testBit c = true → ψ j = 0) :
    ∀ i, i < 2 ^ n → semCNOT c t ψ i = ψ i := by
  intro i hi
  by_cases hb : i.testBit c = true
  · have h0 : ψ i = 0 := hz i hi hb
    have hx : ψ (i ^^^ 2 ^ t) = 0 :=
      hz _ (xor_two_pow_lt i t n ht hi)
        (by rw [testBit_xor_two_pow_ne i t c (fun he => hct he.symm)]; exact hb)
    simp [semCNOT, hb, h0, hx]
  · simp [semCNOT, hb]

theorem semCCNOT_noop_c1 (n c1 c2 t : ℕ) (ψ : ℕ → ℂ) (ht : t < n)
    (hct : c1 ≠ t)
    (hz : ∀ j, j < 2 ^ n → j.testBit c1 = true → ψ j = 0) :
    ∀ i, i < 2 ^ n → semCCNOT c1 c2 t ψ i = ψ i := by
  intro i hi
  by_cases hb : i.testBit c1 = true
  · have h0 : ψ i = 0 := hz i hi hb
    have hx : ψ (i ^^^ 2 ^ t) = 0 :=
      hz _ (xor_two_pow_lt i t n ht hi)
        (by rw [testBit_xor_two_pow_ne i t c1 (fun he => hct he.symm)]; exact hb)
    simp [semCCNOT, hb, h0, hx]
  · simp [semCCNOT, hb]

theorem semCCNOT_reduce_c1 (n c1 c2 t : ℕ) (ψ : ℕ → ℂ) (ht : t < n)
    (hct : c1 ≠ t)
    (ho : ∀ j, j < 2 ^ n → j.testBit c1 = false → ψ j = 0) :
    ∀ i, i < 2 ^ n → semCCNOT c1 c2 t ψ i = semCNOT c2 t ψ i := by
  intro i hi
  by_cases hb : i.testBit c1 = true
  · simp [semCCNOT, semCNOT, hb]
  · simp only [Bool.not_eq_true] at hb
    have h0 : ψ i = 0 := ho i hi hb
    have hx : ψ (i ^^^ 2 ^ t) = 0 :=
      ho _ (xor_two_pow_lt i t n ht hi)
        (by rw [testBit_xor_two_pow_ne i t c1 (fun he => hct he.symm)]; exact hb)
    simp [semCCNOT, semCNOT, hb, h0, hx]

theorem semCNOT_both_one (n c1 c2 t : ℕ) (ψ : ℕ → ℂ) (ht : t < n)
    (h1t : c1 ≠ t) (h2t : c2 ≠ t)
    (ho1 : ∀ j, j < 2 ^ n → j.testBit c1 = false → ψ j = 0)
    (ho2 : ∀ j, j < 2 ^ n → j.testBit c2 = false → ψ j = 0) :
    ∀ i, i < 2 ^ n → semCNOT c2 t ψ i = semCNOT c1 t ψ i := by
  intro i hi
  by_cases hb1 : i.testBit c1 = true <;> by_cases hb2 : i.testBit c2 = true
  · simp [semCNOT, hb1, hb2]
  · simp only [Bool.not_eq_true] at hb2
    have h0 : ψ i = 0 := ho2 i hi hb2
    have hx : ψ (i ^^^ 2 ^ t) = 0 :=
      ho2 _ (xor_two_pow_lt i t n ht hi)
        (by rw [testBit_xor_two_pow_ne i t c2 (fun he => h2t he.symm)]; exact hb2)
    simp [semCNOT, hb1, hb2, h0, hx]
  · simp only [Bool.not_eq_true] at hb1
    have h0 : ψ i = 0 := ho1 i hi hb1
    have hx : ψ (i ^^^ 2 ^ t) = 0 :=
      ho1 _ (xor_two_pow_lt i t n ht hi)
        (by rw [testBit_xor_two_pow_ne i t c1 (fun he => h1t he.symm)]; exact hb1)
    simp [semCNOT, hb1, hb2, h0, hx]
  · simp only [Bool.not_eq_true] at hb1 hb2
    simp [semCNOT, hb1, hb2]

theorem semCCZ_noop_c1 (n c1 c2 t : ℕ) (ψ : ℕ → ℂ)
    (hz : ∀ j, j < 2 ^ n → j.testBit c1 = true → ψ j = 0) :
    ∀ i, i < 2 ^ n → semCCZ c1 c2 t ψ i = ψ i := by
  intro i hi
  by_cases hb : i.testBit c1 = true
  · have h0 : ψ i = 0 := hz i hi hb
    simp [semCCZ, hb, h0]
  · simp [semCCZ, hb]

theorem semCZ_noop (n c t : ℕ) (ψ : ℕ → ℂ)
    (hz : ∀ j, j < 2 ^ n → j.testBit c = true → ψ j = 0) :
    ∀ i, i < 2 ^ n → semCZ c t ψ i = ψ i := by
  intro i hi
  by_cases hb : i.testBit c = true
  · have h0 : ψ i = 0 := hz i hi hb
    simp [semCZ, hb, h0]
  · simp [semCZ, hb]

theorem semCCZ_reduce_c1 (n c1 c2 t : ℕ) (ψ : ℕ → ℂ)
    (ho : ∀ j, j < 2 ^ n → j.testBit c1 = false → ψ j = 0) :
    ∀ i, i < 2 ^ n → semCCZ c1 c2 t ψ i = semCZ c2 t ψ i := by
  intro i hi
  by_cases hb : i.testBit c1 = true
  · simp [semCCZ, semCZ, hb]
  · simp only [Bool.not_eq_true] at hb
    have h0 : ψ i = 0 := ho i hi hb
    simp [semCCZ, semCZ, hb, h0]

theorem semCZ_both_one (n c1 c2 t : ℕ) (ψ : ℕ → ℂ)
    (ho1 : ∀ j, j < 2 ^ n → j.testBit c1 = false → ψ j = 0)
    (ho2 : ∀ j, j < 2 ^ n → j.testBit c2 = false → ψ j = 0) :
    ∀ i, i < 2 ^ n → semCZ c2 t ψ i = semCZ c1 t ψ i := by
  intro i hi
  by_cases hb1 : i.testBit c1 = true <;> by_cases hb2 : i.testBit c2 = true
  · simp [semCZ, hb1, hb2]
  · simp only [Bool.not_eq_true] at hb2
    have h0 : ψ i = 0 := ho2 i hi hb2
    simp [semCZ, hb1, hb2, h0]
  · simp only [Bool.not_eq_true] at hb1
    have h0 : ψ i = 0 := ho1 i hi hb1
    simp [semCZ, hb1, hb2, h0]
  · simp only [Bool.not_eq_true] at hb1 hb2
    simp [semCZ, hb1, hb2]

/-- C2: in stabilizer mode, a doubly-controlled gate (`CCNOT`, `CCZ`) whose
control qubit has probability exactly 0 leaves the state unchanged — and
this is the correct semantics, since the full gate is the identity on such
states; a control probability of exactly 1 reduces the dispatch to the same
gate with that control removed (`CNOT` / `CZ` on the remaining qubits), and
the full gate agrees with the reduced gate on such states. -/
theorem hybrid_cc_gate_prob_probe (n c1 c2 t : ℕ) (ψ : ℕ → ℂ)
    (ht : t < n) (h1t : c1 ≠ t) (h2t : c2 ≠ t)
    (hnorm : totalNorm n ψ = 1) :
    ((probQ n c1 ψ = 0 ∨ probQ n c2 ψ = 0) →
      ∀ i, i < 2 ^ n →
        hybridCCNOT n c1 c2 t ψ i = ψ i ∧ semCCNOT c1 c2 t ψ i = ψ i ∧
        hybridCCZ n c1 c2 t ψ i = ψ i ∧ semCCZ c1 c2 t ψ i = ψ i) ∧
    (probQ n c1 ψ = 1 →
      ∀ i, i < 2 ^ n →
        hybridCCNOT n c1 c2 t ψ i = semCNOT c2 t ψ i ∧
        semCCNOT c1 c2 t ψ i = semCNOT c2 t ψ i ∧
        hybridCCZ n c1 c2 t ψ i = semCZ c2 t ψ i ∧
        semCCZ c1 c2 t ψ i = semCZ c2 t ψ i) ∧
    (probQ n c2 ψ = 1 →
      ∀ i, i < 2 ^ n →
        hybridCCNOT n c1 c2 t ψ i = semCNOT c1 t ψ i ∧
        semCCNOT c1 c2 t ψ i = semCNOT c1 t ψ i ∧
        hybridCCZ n c1 c2 t ψ i = semCZ c1 t ψ i ∧
        semCCZ c1 c2 t ψ i = semCZ c1 t ψ i) := by
  refine ⟨?_, ?_, ?_⟩
  · intro hz i hi
    rcases hz with h10 | h20
    · have hz1 := probQ_zero_amp n c1 ψ h10
      have e1 : hybridCCNOT n c1 c2 t ψ i = ψ i := by
        unfold hybridCCNOT
        rw [if_pos h10]
      have e2 : hybridCCZ n c1 c2 t ψ i = ψ i := by
        unfold hybridCCZ
        rw [if_pos h10]
      exact ⟨e1, semCCNOT_noop_c1 n c1 c2 t ψ ht h1t hz1 i hi, e2,
        semCCZ_noop_c1 n c1 c2 t ψ hz1 i hi⟩
    · have hz2 := probQ_zero_amp n c2 ψ h20
      have hccnot : semCCNOT c1 c2 t ψ i = ψ i := by
        rw [semCCNOT_comm]
        exact semCCNOT_noop_c1 n c2 c1 t ψ ht h2t hz2 i hi
      have hccz : semCCZ c1 c2 t ψ i = ψ i := by
        rw [semCCZ_comm]
        exact semCCZ_noop_c1 n c2 c1 t ψ hz2 i hi
      by_cases h10 : probQ n c1 ψ = 0
      · have e1 : hybridCCNOT n c1 c2 t ψ i = ψ i := by
          unfold hybridCCNOT
          rw [if_pos h10]
        have e2 : hybridCCZ n c1 c2 t ψ i = ψ i := by
          unfold hybridCCZ
          rw [if_pos h10]
        exact ⟨e1, hccnot, e2, hccz⟩
      · by_cases h11 : probQ n c1 ψ = 1
        · have e1 : hybridCCNOT n c1 c2 t ψ i = semCNOT c2 t ψ i := by
            unfold hybridCCNOT
            rw [if_neg h10, if_pos h11]
          have e2 : hybridCCZ n c1 c2 t ψ i = semCZ c2 t ψ i := by
            unfold hybridCCZ
            rw [if_neg h10, if_pos h11]
          refine ⟨?_, hccnot, ?_, hccz⟩
          · rw [e1]
            exact semCNOT_noop n c2 t ψ ht h2t hz2 i hi
          · rw [e2]
            exact semCZ_noop n c2 t ψ hz2 i hi
        · have e1 : hybridCCNOT n c1 c2 t ψ i = ψ i := by
            unfold hybridCCNOT
            rw [if_neg h10, if_neg h11, if_pos h20]
          have e2 : hybridCCZ n c1 c2 t ψ i = ψ i := by
            unfold hybridCCZ
            rw [if_neg h10, if_neg h11, if_pos h20]
          exact ⟨e1, hccnot, e2, hccz⟩
  · intro h11 i hi
    have h10 : ¬ probQ n c1 ψ = 0 := by
      rw [h11]
      norm_num
    have ho1 := probQ_one_amp n c1 ψ hnorm h11
    have e1 : hybridCCNOT n c1 c2 t ψ i = semCNOT c2 t ψ i := by
      unfold hybridCCNOT
      rw [if_neg h10, if_pos h11]
    have e2 : hybridCCZ n c1 c2 t ψ i = semCZ c2 t ψ i := by
      unfold hybridCCZ
      rw [if_neg h10, if_pos h11]
    exact ⟨e1, semCCNOT_reduce_c1 n c1 c2 t ψ ht h1t ho1 i hi, e2,
      semCCZ_reduce_c1 n c1 c2 t ψ ho1 i hi⟩
  · intro h21 i hi
    have h20 : ¬ probQ n c2 ψ = 0 := by
      rw [h21]
      norm_num
    have ho2 := probQ_one_amp n c2 ψ hnorm h21
    have hccnot : semCCNOT c1 c2 t ψ i = semCNOT c1 t ψ i := by
      rw [semCCNOT_comm]
      exact semCCNOT_reduce_c1 n c2 c1 t ψ ht h2t ho2 i hi
    have hccz : semCCZ c1 c2 t ψ i = semCZ c1 t ψ i := by
      rw [semCCZ_comm]
      exact semCCZ_reduce_c1 n c2 c1 t ψ ho2 i hi
    by_cases h10 : probQ n c1 ψ = 0
    · have hz1 := probQ_zero_amp n c1 ψ h10
      have e1 : hybridCCNOT n c1 c2 t ψ i = ψ i := by
        unfold hybridCCNOT
        rw [if_pos h10]
      have e2 : hybridCCZ n c1 c2 t ψ i = ψ i := by
        unfold hybridCCZ
        rw [if_pos h10]
      refine ⟨?_, hccnot, ?_, hccz⟩
      · rw [e1]
        exact (semCNOT_noop n c1 t ψ ht h1t hz1 i hi).symm
      · rw [e2]
        exact (semCZ_noop n c1 t ψ hz1 i hi).symm
    · by_cases h11 : probQ n c1 ψ = 1
      · have ho1 := probQ_one_amp n c1 ψ hnorm h11
        have e1 : hybridCCNOT n c1 c2 t ψ i = semCNOT c2 t ψ i := by
          unfold hybridCCNOT
          rw [if_neg h10, if_pos h11]
        have e2 : hybridCCZ n c1 c2 t ψ i = semCZ c2 t ψ i := by
          unfold hybridCCZ
          rw [if_neg h10, if_pos h11]
        refine ⟨?_, hccnot, ?_, hccz⟩
        · rw [e1]
          exact semCNOT_both_one n c1 c2 t ψ ht h1t h2t ho1 ho2 i hi
        · rw [e2]
          exact semCZ_both_one n c1 c2 t ψ ho1 ho2 i hi
      · have e1 : hybridCCNOT n c1 c2 t ψ i = semCNOT c1 t ψ i := by
          unfold hybridCCNOT
          rw [if_neg h10, if_neg h11, if_neg h20, if_pos h21]
        have e2 : hybridCCZ n c1 c2 t ψ i = semCZ c1 t ψ i := by
          unfold hybridCCZ
          rw [if_neg h10, if_neg h11, if_neg h20, if_pos h21]
        exact ⟨e1, hccnot, e2, hccz⟩

/-- Witness for C2: three qubits in the basis state 0 (both control
probabilities are 0). -/
theorem hybrid_cc_gate_prob_probe_witness :
    2 < 3 ∧ (0 : ℕ) ≠ 2 ∧ (1 : ℕ) ≠ 2 ∧
    totalNorm 3 (fun i => if i = 0 then 1 else 0) = 1 ∧
    (((probQ 3 0 (fun i => if i = 0 then 1 else 0) = 0 ∨
        probQ 3 1 (fun i => if i = 0 then 1 else 0) = 0) →
      ∀ i, i < 2 ^ 3 →
        hybridCCNOT 3 0 1 2 (fun i => if i = 0 then 1 else 0) i =
            (if i = 0 then 1 else 0) ∧
          semCCNOT 0 1 2 (fun i => if i = 0 then 1 else 0) i =
            (if i = 0 then 1 else 0) ∧
          hybridCCZ 3 0 1 2 (fun i => if i = 0 then 1 else 0) i =
            (if i = 0 then 1 else 0) ∧
          semCCZ 0 1 2 (fun i => if i = 0 then 1 else 0) i =
            (if i = 0 then 1 else 0)) ∧
      (probQ 3 0 (fun i => if i = 0 then 1 else 0) = 1 →
        ∀ i, i < 2 ^ 3 →
          hybridCCNOT 3 0 1 2 (fun i => if i = 0 then 1 else 0) i =
              semCNOT 1 2 (fun i => if i = 0 then 1 else 0) i ∧
            semCCNOT 0 1 2 (fun i => if i = 0 then 1 else 0) i =
              semCNOT 1 2 (fun i => if i = 0 then 1 else 0) i ∧
            hybridCCZ 3 0 1 2 (fun i => if i = 0 then 1 else 0) i =
              semCZ 1 2 (fun i => if i = 0 then 1 else 0) i ∧
            semCCZ 0 1 2 (fun i => if i = 0 then 1 else 0) i =
              semCZ 1 2 (fun i => if i = 0 then 1 else 0) i) ∧
      (probQ 3 1 (fun i => if i = 0 then 1 else 0) = 1 →
        ∀ i, i < 2 ^ 3 →
          hybridCCNOT 3 0 1 2 (fun i => if i = 0 then 1 else 0) i =
              semCNOT 0 2 (fun i => if i = 0 then 1 else 0) i ∧
            semCCNOT 0 1 2 (fun i => if i = 0 then 1 else 0) i =
              semCNOT 0 2 (fun i => if i = 0 then 1 else 0) i ∧
            hybridCCZ 3 0 1 2 (fun i => if i = 0 then 1 else 0) i =
              semCZ 0 2 (fun i => if i = 0 then 1 else 0) i ∧
            semCCZ 0 1 2 (fun i => if i = 0 then 1 else 0) i =
              semCZ 0 2 (fun i => if i = 0 then 1 else 0) i)) :=
  ⟨by decide, by decide, by decide,
    by simp [totalNorm, Finset.sum_range_succ],
    hybrid_cc_gate_prob_probe 3 0 1 2 (fun i => if i = 0 then 1 else 0)
      (by decide) (by decide) (by decide)
      (by simp [totalNorm, Finset.sum_range_succ])⟩

/-! ## The stabilizer-hybrid mode state machine (part_000)

`QStabilizerHybrid` holds either `stabilizer` or `engine` (exactly one is
non-null).  The operations below abstract the dispatch paths of part_000
that create or drop those members. -/

inductive HybMode where
  | stab
  | engine
  deriving DecidableEq

/-- The operations of the hybrid layer relevant to its mode, named by the
dispatch path taken in part_000. -/
inductive HybOp where
  /-- A gate handled by the active member (stabilizer gate, or any gate
  once the engine exists); neither member is created or dropped. -/
  | cliffordGate
  /-- A gate whose dispatch reaches `SwitchToEngine` (e.g. `CCNOT` with
  both control probabilities strictly between 0 and 1). -/
  | nonCliffordGate
  /-- `SetQuantumState` with `qubitCount > 1`: `SwitchToEngine` then
  `engine->SetQuantumState`. -/
  | setQuantumStateMulti
  /-- `SetQuantumState` with `qubitCount == 1`: `engine = NULL` and the
  stabilizer is re-made (or reset) before `ApplySingleBit`. -/
  | setQuantumState1
  /-- `Dispose` with `length < qubitCount` and
  `stabilizer->CanDecomposeDispose` true: the active member disposes. -/
  | disposeSeparable
  /-- `Dispose` with `length < qubitCount`, in stabilizer mode with
  `CanDecomposeDispose` false: `SwitchToEngine`, then the engine disposes. -/
  | disposeNonSeparable
  /-- `Dispose` with `length == qubitCount`: both members dropped,
  `SetQubitCount(1)` and `stabilizer = MakeStabilizer(0)`. -/
  | disposeFull
  /-- `Decompose` with `length < qubitCount`: the active member splits. -/
  | decomposeSplit
  /-- `Decompose` with `length == qubitCount`: everything moves to `dest`,
  then `SetQubitCount(1)` and `stabilizer = MakeStabilizer(0)`. -/
  | decomposeFull
  deriving DecidableEq

/-- Mode transition of one hybrid operation, transcribed from part_000. -/
def stepMode : HybMode → HybOp → HybMode
  | m, .cliffordGate => m
  | _, .nonCliffordGate => .engine
  | _, .setQuantumStateMulti => .engine
  | _, .setQuantumState1 => .stab
  | m, .disposeSeparable => m
  | _, .disposeNonSeparable => .engine
  | _, .disposeFull => .stab
  | m, .decomposeSplit => m
  | _, .decomposeFull => .stab

/-- A sequence of hybrid operations, applied in order. -/
def runOps (m : HybMode) (ops : List HybOp) : HybMode := ops.foldl stepMode m

/-- Counterexample to C3: a full-register `Dispose` issued after the engine
has been materialized does return the instance to stabilizer mode, so it is
not the case that every operation sequence keeps an engine-mode instance in
engine mode. -/
theorem engine_mode_reverts_counterexample :
    runOps HybMode.engine [HybOp.disposeFull] = HybMode.stab ∧
    ¬ (∀ ops : List HybOp, runOps HybMode.engine ops = HybMode.engine) :=
  ⟨rfl, fun h => absurd (h [HybOp.disposeFull]) (by decide)⟩

/-- C3 (amended): Stabilizer → Engine on a non-Clifford operation or a
dense-amplitude request, and Engine → Stabilizer never occurs through gate
dispatch alone — only the re-initializing operations (full-register
`Dispose`/`Decompose` and one-qubit `SetQuantumState`, which rebuild a
fresh stabilizer) leave engine mode. -/
theorem engine_mode_is_gate_stable :
    (stepMode HybMode.stab HybOp.nonCliffordGate = HybMode.engine ∧
     stepMode HybMode.stab HybOp.setQuantumStateMulti = HybMode.engine) ∧
    (∀ ops : List HybOp,
      (∀ op ∈ ops, op ≠ HybOp.setQuantumState1 ∧ op ≠ HybOp.disposeFull ∧
        op ≠ HybOp.decomposeFull) →
      runOps HybMode.engine ops = HybMode.engine) := by
  refine ⟨⟨rfl, rfl⟩, ?_⟩
  intro ops
  induction ops with
  | nil => intro _; rfl
  | cons op rest ih =>
    intro h
    have hop := h op (List.mem_cons_self op rest)
    have hstep : stepMode HybMode.engine op = HybMode.engine := by
      cases op
      · rfl
      · rfl
      · rfl
      · exact absurd rfl hop.1
      · rfl
      · rfl
      · exact absurd rfl hop.2.1
      · rfl
      · exact absurd rfl hop.2.2
    have hrest : ∀ op2 ∈ rest, op2 ≠ HybOp.setQuantumState1 ∧
        op2 ≠ HybOp.disposeFull ∧ op2 ≠ HybOp.decomposeFull :=
      fun o ho => h o (List.mem_cons_of_mem _ ho)
    calc runOps HybMode.engine (op :: rest)
        = runOps (stepMode HybMode.engine op) rest := rfl
      _ = runOps HybMode.engine rest := by rw [hstep]
      _ = HybMode.engine := ih hrest

/-- Witness for the amended C3 at a concrete gate-only sequence. -/
theorem engine_mode_is_gate_stable_witness :
    (stepMode HybMode.stab HybOp.nonCliffordGate = HybMode.engine ∧
     stepMode HybMode.stab HybOp.setQuantumStateMulti = HybMode.engine) ∧
    runOps HybMode.engine [HybOp.cliffordGate, HybOp.nonCliffordGate,
      HybOp.disposeSeparable] = HybMode.engine :=
  ⟨engine_mode_is_gate_stable.1,
    engine_mode_is_gate_stable.2
      [HybOp.cliffordGate, HybOp.nonCliffordGate, HybOp.disposeSeparable]
      (by decide)⟩

/-! ## Dispose (full-register resets), CPU engine and hybrid layer -/

/-- `QEngineCPU::Dispose(start, length)` (state.cpp lines 387–432).  For a
full-register dispose (`maxQPower - partPower == 0`) the count is set to 1
"for safety" and a fresh state buffer is allocated but never written — its
content is the arbitrary `uninitNew`.  Otherwise the marginal probability
of each kept index is accumulated over the sequential gather loop, the
last-written angle per kept index survives (`uAngle` is the
never-initialized content of `partStateAngle`), and the kept state is
rewritten as `sqrt(prob) * (cos angle + i sin angle)`. -/
noncomputable def DisposeCPU (minNorm : ℝ) (uninitNew : ℕ → ℂ) (uAngle : ℕ → ℝ)
    (e : CpuEngine) (start length : ℕ) : CpuEngine :=
  if length = 0 then e
  else
    let e1 := if e.runningNorm ≠ 1 then NormalizeState minNorm e else e
    let partPower := 2 ^ length
    let mask := (partPower - 1) <<< start
    let startMask := 2 ^ start - 1
    let endMask := (2 ^ e1.n - 1) ^^^ (mask ||| startMask)
    if 2 ^ e1.n - partPower = 0 then
      { n := 1, amps := uninitNew, runningNorm := e1.runningNorm }
    else
      let idx : ℕ → ℕ := fun i => (i &&& startMask) ||| ((i &&& endMask) >>> length)
      let partProb : ℕ → ℝ := fun t =>
        ∑ i in (Finset.range (2 ^ e1.n)).filter (fun i => idx i = t),
          Complex.normSq (e1.amps i)
      let partAngle : ℕ → ℝ :=
        writeList ((List.range (2 ^ e1.n)).map fun i =>
          (idx i, Complex.arg (e1.amps i))) uAngle
      { n := e1.n - length
        amps := fun lcv =>
          if lcv < 2 ^ (e1.n - length) then
            (Real.sqrt (partProb lcv) : ℂ) *
              ⟨Real.cos (partAngle lcv), Real.sin (partAngle lcv)⟩
          else uninitNew lcv
        runningNorm := e1.runningNorm }

/-- The one-qubit basis state `|perm⟩`, the state of `MakeStabilizer(perm)`. -/
def basisState (perm : ℕ) : ℕ → ℂ := fun i => if i = perm then 1 else 0

/-- The hybrid layer as (qubit count, mode, represented state). -/
structure HybridEngine where
  n : ℕ
  mode : HybMode
  amps : ℕ → ℂ

/-- `QStabilizerHybrid::Dispose(start, length)` (part_000): when
`length == qubitCount` both members are dropped, buffers dumped, the count
reset to 1 and a fresh one-qubit stabilizer over permutation 0 made.
Otherwise, if the stabilizer cannot decompose the block, `SwitchToEngine`;
the active member then disposes the block (its state semantics is the
abstract collaborator `subDispose`) and the count shrinks by `length`. -/
def hybridDispose (subDispose : (ℕ → ℂ) → ℕ → ℕ → (ℕ → ℂ))
    (canDecomposeDispose : Bool) (e : HybridEngine) (start length : ℕ) :
    HybridEngine :=
  if length = e.n then { n := 1, mode := .stab, amps := basisState 0 }
  else
    { n := e.n - length
      mode :=
        if e.mode = HybMode.stab ∧ canDecomposeDispose = false then HybMode.engine
        else e.mode
      amps := subDispose e.amps start length }

/-- `QStabilizerHybrid::Decompose(start, dest)` (part_000), the source
side: when `dest` has the full width, everything moves to `dest`, the
count is reset to 1 and a fresh one-qubit stabilizer over permutation 0 is
made; otherwise the active member splits the block off. -/
def hybridDecompose (subDecompose : (ℕ → ℂ) → ℕ → ℕ → (ℕ → ℂ))
    (e : HybridEngine) (start length : ℕ) : HybridEngine :=
  if length = e.n then { n := 1, mode := .stab, amps := basisState 0 }
  else
    { n := e.n - length, mode := e.mode, amps := subDecompose e.amps start length }

/-- Counterexample to C10: a full-register `Dispose` on the CPU engine sets
the qubit count to 1 but leaves the freshly allocated one-qubit buffer
unwritten — with zeroed memory the result is not the `|0>` basis state. -/
theorem disposeCPU_full_not_ket0_counterexample :
    (DisposeCPU 0 (fun _ => 0) (fun _ => 0) ⟨1, basisState 0, 1⟩ 0 1).n = 1 ∧
    (DisposeCPU 0 (fun _ => 0) (fun _ => 0) ⟨1, basisState 0, 1⟩ 0 1).amps 0 = 0 ∧
    basisState 0 0 = 1 ∧ (0 : ℂ) ≠ 1 := by
  refine ⟨?_, ?_, ?_, ?_⟩
  · simp [DisposeCPU]
  · simp [DisposeCPU]
  · simp [basisState]
  · exact zero_ne_one

/-- C10 (amended): no full-register dispose or decompose ever produces a
zero-qubit engine — the qubit count is reset to exactly 1 and stays at
least 1 through every partial dispose/decompose; the stabilizer-hybrid
layer additionally resets to the one-qubit `|0>` state, while the CPU
engine's full-register `Dispose` leaves the fresh one-qubit buffer with
unspecified contents. -/
theorem dispose_keeps_at_least_one_qubit (minNorm : ℝ) (uninitNew : ℕ → ℂ)
    (uAngle : ℕ → ℝ) (e : CpuEngine) (start length : ℕ)
    (subD : (ℕ → ℂ) → ℕ → ℕ → (ℕ → ℂ)) (cdd : Bool) (h : HybridEngine)
    (hstart hlength : ℕ) (he : 1 ≤ e.n) (_hh : 1 ≤ h.n) (hhl : hlength ≤ h.n) :
    1 ≤ (DisposeCPU minNorm uninitNew uAngle e start length).n ∧
    (length = e.n → (DisposeCPU minNorm uninitNew uAngle e start length).n = 1) ∧
    1 ≤ (hybridDispose subD cdd h hstart hlength).n ∧
    1 ≤ (hybridDecompose subD h hstart hlength).n ∧
    (hlength = h.n →
      hybridDispose subD cdd h hstart hlength =
        { n := 1, mode := HybMode.stab, amps := basisState 0 } ∧
      hybridDecompose subD h hstart hlength =
        { n := 1, mode := HybMode.stab, amps := basisState 0 }) := by
  have hn1 : (if e.runningNorm ≠ 1 then NormalizeState minNorm e else e).n = e.n := by
    split
    · rfl
    · rfl
  refine ⟨?_, ?_, ?_, ?_, ?_⟩
  · unfold DisposeCPU
    by_cases h0 : length = 0
    · simpa [h0] using he
    · simp only [h0, if_false, hn1]
      by_cases hfull : 2 ^ e.n - 2 ^ length = 0
      · simp [hfull]
      · simp only [hfull, if_false]
        have hlt : 2 ^ length < 2 ^ e.n := by omega
        have : length < e.n := by
          by_contra hcon
          have : 2 ^ e.n ≤ 2 ^ length := Nat.pow_le_pow_right (by omega) (by omega)
          omega
        omega
  · intro hle
    have h0 : ¬ length = 0 := by omega
    have hfull : 2 ^ e.n - 2 ^ length = 0 := by
      rw [hle]
      omega
    simp [DisposeCPU, h0, hfull, apply_ite CpuEngine.n, NormalizeState]
  · unfold hybridDispose
    by_cases hfull : hlength = h.n
    · simp [hfull]
    · simp only [hfull, if_false]
      have : hlength < h.n := by omega
      omega
  · unfold hybridDecompose
    by_cases hfull : hlength = h.n
    · simp [hfull]
    · simp only [hfull, if_false]
      have : hlength < h.n := by omega
      omega
  · intro hfull
    constructor
    · unfold hybridDispose
      rw [if_pos hfull]
    · unfold hybridDecompose
      rw [if_pos hfull]

/-- Witness for the amended C10 at concrete one- and two-qubit engines. -/
theorem dispose_keeps_at_least_one_qubit_witness :
    1 ≤ (⟨2, basisState 0, 1⟩ : CpuEngine).n ∧
    1 ≤ (⟨2, HybMode.engine, basisState 0⟩ : HybridEngine).n ∧
    (1 ≤ (DisposeCPU 0 (fun _ => 0) (fun _ => 0) ⟨2, basisState 0, 1⟩ 0 2).n ∧
      (2 = (⟨2, basisState 0, 1⟩ : CpuEngine).n →
        (DisposeCPU 0 (fun _ => 0) (fun _ => 0) ⟨2, basisState 0, 1⟩ 0 2).n = 1) ∧
      1 ≤ (hybridDispose (fun a _ _ => a) true ⟨2, HybMode.engine, basisState 0⟩ 0 2).n ∧
      1 ≤ (hybridDecompose (fun a _ _ => a) ⟨2, HybMode.engine, basisState 0⟩ 0 2).n ∧
      (2 = (⟨2, HybMode.engine, basisState 0⟩ : HybridEngine).n →
        hybridDispose (fun a _ _ => a) true ⟨2, HybMode.engine, basisState 0⟩ 0 2 =
          { n := 1, mode := HybMode.stab, amps := basisState 0 } ∧
        hybridDecompose (fun a _ _ => a) ⟨2, HybMode.engine, basisState 0⟩ 0 2 =
          { n := 1, mode := HybMode.stab, amps := basisState 0 })) :=
  ⟨by decide, by decide,
    dispose_keeps_at_least_one_qubit 0 (fun _ => 0) (fun _ => 0)
      ⟨2, basisState 0, 1⟩ 0 2 (fun a _ _ => a) true
      ⟨2, HybMode.engine, basisState 0⟩ 0 2 (by decide) (by decide) (by decide)⟩

/-! ## QPager anti-diagonal gates (part_001, `QPager::ApplySingleInvert`) -/

/-- Flatten a paged state: global index `i` lives in page
`i / 2 ^ pageQubits` at in-page offset `i % 2 ^ pageQubits`. -/
def flattenPages (pageQubits : ℕ) (pg : ℕ → ℕ → ℂ) : ℕ → ℂ :=
  fun i => pg (i / 2 ^ pageQubits) (i % 2 ^ pageQubits)

/-- `QPager::ApplySingleInvert` for an inter-page target
(`target ≥ qubitsPerPage`), transcribed from part_001: the early return
when `topRight == -bottomLeft` and (`randGlobalPhase` or
`topRight == ONE_CMPLX`); the `randGlobalPhase` rewrite
(`topRight = ONE_CMPLX; bottomLeft /= topRight`, i.e. a division by the
freshly assigned 1); then for each page pair a `std::swap` of the two
pages followed by the residual phases — `topRight` on the new low page and
`bottomLeft` on the new high page, each skipped when equal to 1. -/
noncomputable def pagerApplySingleInvert (randGlobalPhase : Bool)
    (topRight bottomLeft : ℂ) (pageQubits target : ℕ) (pg : ℕ → ℕ → ℂ) :
    ℕ → ℕ → ℂ :=
  if topRight = -bottomLeft ∧ (randGlobalPhase = true ∨ topRight = 1) then pg
  else
    let tr := if randGlobalPhase then 1 else topRight
    let bl := if randGlobalPhase then bottomLeft / 1 else bottomLeft
    let bitPos := target - pageQubits
    fun p a =>
      if p.testBit bitPos = true then
        (if bl = 1 then pg (p ^^^ 2 ^ bitPos) a else bl * pg (p ^^^ 2 ^ bitPos) a)
      else
        (if tr = 1 then pg (p ^^^ 2 ^ bitPos) a else tr * pg (p ^^^ 2 ^ bitPos) a)

/-- Direct semantics of the 2×2 anti-diagonal gate
`[[0, topRight], [bottomLeft, 0]]` on qubit `q` of the global state. -/
def applyInvertDirect (topRight bottomLeft : ℂ) (q : ℕ) (s : ℕ → ℂ) : ℕ → ℂ :=
  fun i =>
    if i.testBit q = true then bottomLeft * s (i ^^^ 2 ^ q)
    else topRight * s (i ^^^ 2 ^ q)

theorem div_page_testBit (i pageQubits t : ℕ) (h : pageQubits ≤ t) :
    (i / 2 ^ pageQubits).testBit (t - pageQubits) = i.testBit t := by
  rw [← Nat.shiftRight_eq_div_pow, Nat.testBit_shiftRight]
  congr 1
  omega

theorem xor_high_mod_page (i pageQubits t : ℕ) (h : pageQubits ≤ t) :
    (i ^^^ 2 ^ t) % 2 ^ pageQubits = i % 2 ^ pageQubits := by
  apply Nat.eq_of_testBit_eq
  intro j
  by_cases hj : j < pageQubits
  · have hne : (2 ^ t).testBit j = false := Nat.testBit_two_pow_of_ne (by omega)
    simp [Nat.testBit_mod_two_pow, Nat.testBit_xor, hj, hne]
  · simp [Nat.testBit_mod_two_pow, hj]

theorem xor_high_div_page (i pageQubits t : ℕ) (h : pageQubits ≤ t) :
    (i ^^^ 2 ^ t) / 2 ^ pageQubits = (i / 2 ^ pageQubits) ^^^ 2 ^ (t - pageQubits) := by
  apply Nat.eq_of_testBit_eq
  intro j
  rw [← Nat.shiftRight_eq_div_pow, ← Nat.shiftRight_eq_div_pow]
  simp only [Nat.testBit_shiftRight, Nat.testBit_xor, Nat.testBit_two_pow]
  congr 1
  exact decide_eq_decide.mpr (by omega)

/-- Counterexample to C7: the anti-diagonal gate `[[0, 1], [-1, 0]]` on the
inter-page qubit of a two-page, two-qubit pager hits the early return and
leaves the state `|10>` unchanged, while the direct gate moves its
amplitude to `|00>`. -/
theorem pager_invert_early_return_counterexample :
    pagerApplySingleInvert false 1 (-1) 1 1
        (fun p a => if p = 1 ∧ a = 0 then 1 else 0) =
      (fun p a => if p = 1 ∧ a = 0 then 1 else 0) ∧
    flattenPages 1 (pagerApplySingleInvert false 1 (-1) 1 1
        (fun p a => if p = 1 ∧ a = 0 then 1 else 0)) 0 = 0 ∧
    applyInvertDirect 1 (-1) 1
      (flattenPages 1 (fun p a => if p = 1 ∧ a = 0 then 1 else 0)) 0 = 1 ∧
    (0 : ℂ) ≠ 1 := by
  have hskip : pagerApplySingleInvert false 1 (-1) 1 1
      (fun p a => if p = 1 ∧ a = 0 then 1 else 0) =
      (fun p a => if p = 1 ∧ a = 0 then 1 else 0) := by
    unfold pagerApplySingleInvert
    rw [if_pos ⟨by norm_num, Or.inr rfl⟩]
  refine ⟨hskip, ?_, ?_, zero_ne_one⟩
  · rw [hskip]
    simp [flattenPages]
  · simp [applyInvertDirect, flattenPages]

/-- C7 (amended): for every anti-diagonal gate that does not hit the early
return (`topRight = -bottomLeft` with `topRight = 1`, random global phase
off), the pager's page-swap-plus-residual-phase implementation produces
exactly the global state of the direct 2×2 anti-diagonal gate on the
inter-page qubit, for every input state. -/
theorem pager_invert_matches_direct (tr bl : ℂ) (pageQubits target : ℕ)
    (pg : ℕ → ℕ → ℂ) (hpt : pageQubits ≤ target)
    (hng : ¬ (tr = -bl ∧ tr = 1)) :
    ∀ i, flattenPages pageQubits
        (pagerApplySingleInvert false tr bl pageQubits target pg) i =
      applyInvertDirect tr bl target (flattenPages pageQubits pg) i := by
  intro i
  have hcond : ¬ (tr = -bl ∧ ((false : Bool) = true ∨ tr = 1)) := by
    intro hc
    rcases hc.2 with h2 | h2
    · exact absurd h2 (by simp)
    · exact hng ⟨hc.1, h2⟩
  have hscale : ∀ (c x : ℂ), (if c = 1 then x else c * x) = c * x := by
    intro c x
    split
    · rename_i hc
      rw [hc, one_mul]
    · rfl
  unfold pagerApplySingleInvert flattenPages applyInvertDirect
  rw [if_neg hcond]
  simp only [Bool.false_eq_true, if_false]
  rw [div_page_testBit i pageQubits target hpt, hscale, hscale,
    ← xor_high_div_page i pageQubits target hpt,
    ← xor_high_mod_page i pageQubits target hpt]

/-- Witness for the amended C7 at a concrete two-page pager and gate
`[[0, 2], [3, 0]]`. -/
theorem pager_invert_matches_direct_witness :
    (1 : ℕ) ≤ 1 ∧ ¬ ((2 : ℂ) = -3 ∧ (2 : ℂ) = 1) ∧
    (∀ i, flattenPages 1
        (pagerApplySingleInvert false 2 3 1 1
          (fun p a => if p = 0 ∧ a = 0 then 1 else 0)) i =
      applyInvertDirect 2 3 1
        (flattenPages 1 (fun p a => if p = 0 ∧ a = 0 then 1 else 0)) i) :=
  ⟨by decide, fun hc => absurd hc.2 (by norm_num),
    pager_invert_matches_direct 2 3 1 1
      (fun p a => if p = 0 ∧ a = 0 then 1 else 0) (by decide)
      (fun hc => absurd hc.2 (by norm_num))⟩

/-! ## Decompose (`QEngineCPU::Decohere`, state.cpp lines 323–385)

The two marginal loops run in program order.  The first (over
`remainderPower`) accumulates `remainderStateProb` and writes
`remainderStateAngle[lcv] = arg(stateVec[j])`.  The second (over
`partPower`) accumulates `partStateProb` — and then writes
`remainderStateAngle[lcv] = arg(stateVec[j])` again (the source assigns
`remainderStateAngle`, not `partStateAngle`, in the part loop), so the
entries below `partPower` carry the second loop's values, and
`partStateAngle` is read back without ever having been written: its
content is the arbitrary `uAngle`. -/

/-- The index spreading used by both loops:
`j = lcv % (1 << start); j = j | ((lcv ^ j) << length)`. -/
def embRem (start length lcv : ℕ) : ℕ :=
  (lcv % (1 <<< start)) ||| ((lcv ^^^ (lcv % (1 <<< start))) <<< length)

/-- `QEngineCPU::Decohere`: returns (this engine after the call,
destination state vector).  `uAngle` is the never-written content of
`partStateAngle`; `uninitNew` the fresh remainder buffer beyond the
rewritten range. -/
noncomputable def Decohere (minNorm : ℝ) (uAngle : ℕ → ℝ) (uninitNew : ℕ → ℂ)
    (e : CpuEngine) (start length : ℕ) : CpuEngine × (ℕ → ℂ) :=
  if length = 0 then (e, fun lcv => if lcv = 0 then 1 else 0)
  else
    let e1 := if e.runningNorm ≠ 1 then NormalizeState minNorm e else e
    let s := e1.amps
    let partPower := 2 ^ length
    let remainderPower := 2 ^ (e1.n - length)
    let remainderStateProb : ℕ → ℝ := fun lcv =>
      ∑ k in Finset.range partPower,
        Complex.normSq (s (embRem start length lcv ||| (k <<< start)))
    let partStateProb : ℕ → ℝ := fun lcv =>
      ∑ k in Finset.range remainderPower,
        Complex.normSq (s ((lcv <<< start) ||| embRem start length k))
    let remainderStateAngle : ℕ → ℝ := fun lcv =>
      if lcv < partPower then Complex.arg (s (lcv <<< start))
      else Complex.arg (s (embRem start length lcv))
    let nQ := if 2 ^ e1.n - partPower = 0 then 1 else e1.n - length
    ({ n := nQ
       amps := fun lcv =>
         if lcv < remainderPower then
           (Real.sqrt (remainderStateProb lcv) : ℂ) *
             ⟨Real.cos (remainderStateAngle lcv),
              Real.sin (remainderStateAngle lcv)⟩
         else uninitNew lcv
       runningNorm := e1.runningNorm },
     fun lcv =>
       (Real.sqrt (partStateProb lcv) : ℂ) *
         ⟨Real.cos (uAngle lcv), Real.sin (uAngle lcv)⟩)

/-- The failing input for C1: the separable, normalized two-qubit state
with amplitudes `(1/√2, i/√2, 0, 0)` — the tensor product of the one-qubit
states `(1/√2, i/√2)` (qubit 0) and `(1, 0)` (qubit 1). -/
noncomputable def c1State : ℕ → ℂ := fun i =>
  if i = 0 then (((Real.sqrt 2)⁻¹ : ℝ) : ℂ)
  else if i = 1 then (((Real.sqrt 2)⁻¹ : ℝ) : ℂ) * Complex.I
  else 0

/-- The qubit-0 factor of `c1State`. -/
noncomputable def c1RemFactor : ℕ → ℂ := fun i =>
  if i = 0 then (((Real.sqrt 2)⁻¹ : ℝ) : ℂ)
  else if i = 1 then (((Real.sqrt 2)⁻¹ : ℝ) : ℂ) * Complex.I
  else 0

/-- The qubit-1 factor of `c1State`. -/
def c1PartFactor : ℕ → ℂ := fun i => if i = 0 then 1 else 0

/-- C1, evaluated at the failing input: the state `(1/√2, i/√2, 0, 0)` is
separable across the range [start 1, length 1] (it is the displayed tensor
product) and normalized, yet recomposing `Cohere` after
`Decohere(1, 1, dest)` does not return it — for every possible content of
the uninitialized `partStateAngle` buffer and of the fresh remainder
buffer, the recomposed amplitudes at indices 0 and 1 are equal, while the
original amplitudes differ by the phase `i`. -/
theorem decohere_cohere_roundtrip_fails :
    (∀ i, i < 4 → c1State i = c1RemFactor (i % 2) * c1PartFactor (i / 2)) ∧
    totalNorm 2 c1State = 1 ∧
    ∀ (uAngle : ℕ → ℝ) (uninitNew : ℕ → ℂ),
      ¬ (∀ i, i < 4 →
        (Cohere 0 (Decohere 0 uAngle uninitNew ⟨2, c1State, 1⟩ 1 1).1
            ⟨1, (Decohere 0 uAngle uninitNew ⟨2, c1State, 1⟩ 1 1).2, 1⟩).amps i =
          c1State i) := by
  have hrr : ((Real.sqrt 2)⁻¹ * (Real.sqrt 2)⁻¹ : ℝ) = 2⁻¹ := by
    rw [← mul_inv, Real.mul_self_sqrt (by norm_num)]
  have harg : Complex.arg (((Real.sqrt 2 : ℝ) : ℂ))⁻¹ = 0 := by
    rw [← Complex.ofReal_inv]
    exact Complex.arg_ofReal_of_nonneg (by positivity)
  refine ⟨?_, ?_, ?_⟩
  · intro i hi
    interval_cases i <;> simp [c1State, c1RemFactor, c1PartFactor]
  · simp only [totalNorm, show (2 : ℕ) ^ 2 = 4 by norm_num,
      Finset.sum_range_succ, Finset.sum_range_zero, c1State]
    norm_num [Complex.normSq_mul, Complex.normSq_I, Complex.normSq_ofReal, hrr]
  · intro uA uN hcon
    set D := Decohere 0 uA uN ⟨2, c1State, 1⟩ 1 1 with hD
    have hn : D.1.n = 1 := by
      rw [hD]
      unfold Decohere
      norm_num
    have hrn : D.1.runningNorm = 1 := by
      rw [hD]
      unfold Decohere
      norm_num
    have hamp : D.1.amps 0 = D.1.amps 1 := by
      rw [hD]
      unfold Decohere
      norm_num [embRem, Finset.sum_range_succ, c1State, Complex.normSq_mul,
        Complex.normSq_I, Complex.arg_zero, harg, Nat.shiftLeft_eq,
        Complex.normSq_ofReal, hrr, (by decide : (1 ||| 2 : ℕ) = 3),
        (by norm_num : (1 / 2 : ℝ) = 2⁻¹), Real.sqrt_inv, Complex.ofReal_inv]
    have hc0 : (Cohere 0 D.1 ⟨1, D.2, 1⟩).amps 0 = D.1.amps 0 * D.2 0 := by
      unfold Cohere
      norm_num [hrn, hn, Nat.shiftLeft_eq]
    have hc1 : (Cohere 0 D.1 ⟨1, D.2, 1⟩).amps 1 = D.1.amps 1 * D.2 0 := by
      unfold Cohere
      norm_num [hrn, hn, Nat.shiftLeft_eq]
    have e0 : D.1.amps 0 * D.2 0 = c1State 0 := by
      rw [← hc0]
      exact hcon 0 (by norm_num)
    have e1 : D.1.amps 1 * D.2 0 = c1State 1 := by
      rw [← hc1]
      exact hcon 1 (by norm_num)
    rw [hamp] at e0
    have heq : c1State 0 = c1State 1 := e0.symm.trans e1
    have hrne : ((((Real.sqrt 2)⁻¹ : ℝ)) : ℂ) ≠ 0 := by
      simp only [ne_eq, Complex.ofReal_eq_zero]
      positivity
    simp only [c1State, if_pos rfl, one_ne_zero, if_false, if_true] at heq
    have hIone : (1 : ℂ) = Complex.I :=
      mul_left_cancel₀ hrne (by rw [mul_one]; exact heq)
    have him := congrArg Complex.im hIone
    simp at him

end Qrack
